import Mathlib

/-!
Shallow embedding of the dead-exports scanner (src/index.ts).

Strings are modelled as `List Char`.  JavaScript regular-expression
semantics are modelled as follows:
* `.` matches any character except the newline `'\n'`; the line
  terminators `'\r'`, U+2028 and U+2029 are not modelled (no input in
  this development contains them).
* `(.|\n)` therefore matches any character.
* Greedy quantifiers over character classes that are disjoint from what
  follows them (`\s+` before a keyword, `\w+` at the end of a pattern)
  are modelled by taking the maximal run, which coincides with the
  backtracking semantics for the patterns used by the scanner.
JavaScript `Record<string, number>` objects are modelled as association
lists in string-key creation order; `Object.entries` enumeration order
(array-index keys first, in ascending numeric order, then the remaining
string keys in creation order) is applied when entries are enumerated.
-/

/-- Character strings, modelled as lists of characters. -/
abbrev Str : Type := List Char

/-- Convert a Lean string literal to the `List Char` model. -/
def toL (s : String) : Str := s.toList

/-- Does some suffix of the list satisfy the predicate?  This is the
search-at-every-position primitive underlying regex scanning. -/
def anySuffix (p : Str → Bool) : Str → Bool
  | [] => p []
  | c :: cs => p (c :: cs) || anySuffix p cs

/-- The first character exists and is not a newline: the `.` of `from.+`
must match at least one character after `from`. -/
def headNonNewline : Str → Bool
  | [] => false
  | c :: _ => c ≠ '\n'

/-- Matcher for the regex tail `(.|\n)+from.+`: at least one arbitrary
character, then the literal `from`, then at least one non-newline
character. -/
def tailFrom : Str → Bool
  | [] => false
  | _ :: rest => anySuffix (fun t => (toL "from").isPrefixOf t && headNonNewline (t.drop 4)) rest

/-- Matcher for the regex tail `(.|\n)+(name)+(.|\n)+from.+` starting
right after the literal `import`.  A match of `(name)+` with more than
one repetition contains a match with exactly one repetition (the extra
copies are absorbed by the following `(.|\n)+`), so one occurrence of
`name` is searched for. -/
def tailName (name : Str) : Str → Bool
  | [] => false
  | _ :: rest => anySuffix (fun t => name.isPrefixOf t && tailFrom (t.drop name.length)) rest

/-- Embedding of `isImported` from src/index.ts: does `contents` match
the regular expression `import{1}(.|\n)+(name)+(.|\n)+from.+`? -/
def isImported (name : Str) (contents : Str) : Bool :=
  anySuffix (fun t => (toL "import").isPrefixOf t && tailName name (t.drop 6)) contents

/-- JavaScript `\s` (the common ASCII whitespace characters; the Unicode
space classes are not modelled, no input here contains them). -/
def isWsChar (c : Char) : Bool :=
  c = ' ' || c = '\t' || c = '\n' || c = '\r' || c = '\x0b' || c = '\x0c'

/-- JavaScript `\w`: ASCII letters, digits and underscore. -/
def isWordChar (c : Char) : Bool :=
  c.isAlphanum || c = '_'

/-- The alternation of the export-statement regex of `getExports`
(src/index.ts), in its source order:
`const|let|var|class|interface|type|enum|default async function|default function|function|default`. -/
def keywords : List Str :=
  [toL "const", toL "let", toL "var", toL "class", toL "interface", toL "type",
   toL "enum", toL "default async function", toL "default function", toL "function",
   toL "default"]

/-- Try the keyword alternatives in order at the current position, each
followed by `\s+` (maximal run, at least one character) and `\w+`
(maximal run, at least one character).  On success, return the matched
text from the keyword on, together with the remaining input. -/
def tryAlts (alts : List Str) (s : Str) : Option (Str × Str) :=
  match alts with
  | [] => none
  | a :: rest =>
    if a.isPrefixOf s then
      let s1 := s.drop a.length
      let ws := s1.takeWhile isWsChar
      let s2 := s1.drop ws.length
      let w := s2.takeWhile isWordChar
      if ws ≠ [] ∧ w ≠ [] then some (a ++ ws ++ w, s2.drop w.length)
      else tryAlts rest s
    else tryAlts rest s

/-- Try to match the export-statement regex at the start of `s`:
`export`, then `\s+`, then a keyword alternative with its trailing
identifier.  On success, return the matched text and the remaining
input. -/
def tryMatchAt (s : Str) : Option (Str × Str) :=
  if (toL "export").isPrefixOf s then
    let s1 := s.drop 6
    let ws := s1.takeWhile isWsChar
    if ws = [] then none
    else
      match tryAlts keywords (s1.drop ws.length) with
      | none => none
      | some (m, rest) => some (toL "export" ++ ws ++ m, rest)
  else none

/-- Global (`g`-flag) scanning: try the pattern at each position, and
continue after the end of each match.  `fuel` bounds the recursion; it
is instantiated with the length of the text, which suffices because
every step consumes at least one character. -/
def scanAux : Nat → Str → List Str
  | 0, _ => []
  | _, [] => []
  | fuel + 1, c :: cs =>
    match tryMatchAt (c :: cs) with
    | some (m, rest) => m :: scanAux fuel rest
    | none => scanAux fuel cs

/-- All matches of the export-statement regex in `s`, in order. -/
def scanMatches (s : Str) : List Str := scanAux s.length s

/-- JavaScript `String.prototype.split(' ')`: split at every single
space character; consecutive spaces yield empty segments. -/
def splitSpace : Str → List Str
  | [] => [[]]
  | c :: rest =>
    if c = ' ' then [] :: splitSpace rest
    else
      match splitSpace rest with
      | [] => [[c]]
      | t :: ts => (c :: t) :: ts

/-- Embedding of the per-match body of the `reduce` in `getExports`
(src/index.ts): split the matched statement at spaces, take the last
segment, and discard it when it is empty (falsy). -/
def extractName (statement : Str) : Option Str :=
  match (splitSpace statement).getLast? with
  | none => none
  | some [] => none
  | some r => some r

/-- Embedding of `getExports` from src/index.ts, for a single file's
contents: the names extracted from all matches of the export-statement
regex. -/
def getExportsOf (contents : Str) : List Str :=
  (scanMatches contents).filterMap extractName

/-- The `FileDetails` record of src/index.ts. -/
structure FileDetails where
  path : Str
  contents : Str
  exports : List Str
deriving DecidableEq, Repr

/-- Build the `FileDetails` record that `getExports` pushes for one
file: the path, the contents, and the extracted export names. -/
def mkFileDetails (path contents : Str) : FileDetails :=
  ⟨path, contents, getExportsOf contents⟩

/-- JavaScript object update `{ ...map, [k]: v }` restricted to string
keys: an existing key keeps its creation position and gets the new
value, a new key is appended. -/
def setKey (m : List (Str × Nat)) (k : Str) (v : Nat) : List (Str × Nat) :=
  if k ∈ m.map Prod.fst then
    m.map (fun p => if p.1 = k then (p.1, v) else p)
  else
    m ++ [(k, v)]

/-- The initializer of `importCounts` in `getFilesWithDeadExports`
(src/index.ts): fold `{ ...map, [exp]: 0 }` over the export names. -/
def initCounts (exps : List Str) : List (Str × Nat) :=
  exps.foldl (fun m e => setKey m e 0) []

/-- JavaScript `importCounts[exp]++`: increment the value stored at an
existing key (a missing key is left untouched; the engine only ever
increments keys created by `initCounts`). -/
def bump (m : List (Str × Nat)) (k : Str) : List (Str × Nat) :=
  m.map (fun p => if p.1 = k then (p.1, p.2 + 1) else p)

/-- The inner loop of `getFilesWithDeadExports` for one other file
`fb`: for each export of `fa` (in sequence order, duplicates included),
increment its counter when `isImported` reports a match in `fb`. -/
def scanB (fa fb : FileDetails) (m : List (Str × Nat)) : List (Str × Nat) :=
  fa.exports.foldl (fun acc e => if isImported e fb.contents then bump acc e else acc) m

/-- The counters accumulated for the file at index `a` (the record
`fa`) after the middle loop of `getFilesWithDeadExports`: every file of
the list is scanned except the one at index `a` itself (`fileA ===
fileB` is reference identity; each list entry is a distinct record
created by `getExports`, so identity is modelled by list position). -/
def countsAfter (files : List FileDetails) (a : Nat) (fa : FileDetails) : List (Str × Nat) :=
  files.enum.foldl
    (fun m p => if p.1 = a then m else scanB fa p.2 m)
    (initCounts fa.exports)

/-- Numeric value of a digit string (most significant digit first). -/
def keyNat (s : Str) : Nat :=
  s.foldl (fun acc c => acc * 10 + (c.toNat - 48)) 0

/-- Is the string a canonical array-index property key in the sense of
the ECMAScript ordinary own property key ordering: a canonical decimal
numeral (no leading zero except `"0"` itself) whose value is below
2^32 - 1? -/
def isArrayIndexKey (s : Str) : Bool :=
  s.all Char.isDigit && !s.isEmpty && (s = toL "0" || s.head? ≠ some '0') && keyNat s < 4294967295

/-- JavaScript `Object.entries` enumeration order: array-index keys
first, in ascending numeric order, then the remaining string keys in
creation order. -/
def jsEntries (m : List (Str × Nat)) : List (Str × Nat) :=
  (m.filter (fun p => isArrayIndexKey p.1)).insertionSort (fun p q => keyNat p.1 ≤ keyNat q.1) ++
    m.filter (fun p => !isArrayIndexKey p.1)

/-- The final loop of `getFilesWithDeadExports` for one file: the keys
of the counter object whose value is zero, in `Object.entries` order. -/
def deadOf (m : List (Str × Nat)) : List Str :=
  (jsEntries m).filterMap (fun p => if p.2 > 0 then none else some p.1)

/-- Embedding of `getFilesWithDeadExports` from src/index.ts: for each
file (in list order), accumulate its counters against every other file,
and record the zero-count export names (when there are any) in the
result map, keyed by the file record. -/
def getFilesWithDeadExports (files : List FileDetails) : List (FileDetails × List Str) :=
  files.enum.foldl
    (fun rep p =>
      if (deadOf (countsAfter files p.1 p.2)).isEmpty then rep
      else rep ++ [(p.2, deadOf (countsAfter files p.1 p.2))])
    []

/-- The value stored in a counter object at a key (`importCounts[exp]`);
`0` when the key is missing. -/
def getCount (m : List (Str × Nat)) (k : Str) : Nat :=
  match m.find? (fun p => p.1 = k) with
  | some p => p.2
  | none => 0

/-- The keys of a counter object, in string-key creation order. -/
def keysOf (m : List (Str × Nat)) : List Str :=
  m.map Prod.fst

/-- The list with later duplicates removed: the order in which distinct
keys are first created by `initCounts`. -/
def dedupKeepFirst (l : List Str) : List Str :=
  l.foldl (fun acc n => if n ∈ acc then acc else acc ++ [n]) []

/-- The contents contain a syntactically well-formed single-line
named import of `name`: the exact statement text `import { name } from `
followed by a non-empty module specifier with no newline in it. -/
def wellFormedNamedImport (name contents : Str) : Prop :=
  ∃ pre src post,
    contents = pre ++ toL "import \x7b " ++ name ++ toL " \x7d from " ++ src ++ post ∧
      src ≠ [] ∧ ∀ c ∈ src, c ≠ '\n'

example : isImported (toL "Foo") (toL "import useFoo from 'x'") = true := by decide

example : isImported (toL "bar") (toL "import { bar } from './a'") = true := by decide

example : isImported (toL "foo") (toL "const foo = 1") = false := by decide

example : getExportsOf (toL "export const foo = 1") = [toL "foo"] := by decide

example : getExportsOf (toL "export default async function foo() {}") = [toL "foo"] := by decide

example : getExportsOf (toL "export async function foo() {}") = [] := by decide

example : getExportsOf (toL "export const\tfoo = 1") = [toL "const\tfoo"] := by decide

example : getExportsOf (toL "export const foo = 1\nexport default 0") = [toL "foo", toL "0"] := by decide

example :
    getFilesWithDeadExports
      [mkFileDetails (toL "a.ts") (toL "export function foo() {}\nexport const bar = 1"),
       mkFileDetails (toL "b.ts") (toL "import { bar } from './a'")] =
      [(mkFileDetails (toL "a.ts") (toL "export function foo() {}\nexport const bar = 1"),
        [toL "foo"])] := by decide

example :
    getFilesWithDeadExports
      [⟨toL "a.ts", toL "import { N } from './a'", [toL "N"]⟩] =
      [(⟨toL "a.ts", toL "import { N } from './a'", [toL "N"]⟩, [toL "N"])] := by decide

example :
    countsAfter
      [⟨toL "a", [], [toL "N", toL "N"]⟩, ⟨toL "b", toL "import { N } from 'x'", []⟩]
      0 ⟨toL "a", [], [toL "N", toL "N"]⟩ = [(toL "N", 2)] := by decide

theorem anySuffix_eq_true_iff (p : Str → Bool) (l : Str) :
    anySuffix p l = true ↔ ∃ a b, l = a ++ b ∧ p b = true := by
  induction l with
  | nil =>
    simp only [anySuffix]
    constructor
    · intro h; exact ⟨[], [], rfl, h⟩
    · rintro ⟨a, b, hab, hp⟩
      obtain ⟨-, hb⟩ := List.append_eq_nil.mp hab.symm
      rw [← hb]; exact hp
  | cons c cs ih =>
    simp only [anySuffix, Bool.or_eq_true, ih]
    constructor
    · rintro (h | ⟨a, b, hab, hp⟩)
      · exact ⟨[], c :: cs, rfl, h⟩
      · exact ⟨c :: a, b, by rw [hab]; rfl, hp⟩
    · rintro ⟨a, b, hab, hp⟩
      cases a with
      | nil => left; simpa using hab ▸ hp
      | cons a0 as =>
        right
        refine ⟨as, b, ?_, hp⟩
        simpa using congrArg List.tail hab

theorem anySuffix_of_split (p : Str → Bool) (a b : Str) (h : p b = true) :
    anySuffix p (a ++ b) = true :=
  (anySuffix_eq_true_iff p (a ++ b)).mpr ⟨a, b, rfl, h⟩

theorem isPrefixOf_append (a b : Str) : a.isPrefixOf (a ++ b) = true := by
  rw [List.isPrefixOf_iff_prefix]
  exact ⟨b, rfl⟩

theorem getCount_nil (k : Str) : getCount [] k = 0 := rfl

theorem getCount_cons (p : Str × Nat) (l : List (Str × Nat)) (k : Str) :
    getCount (p :: l) k = if p.1 = k then p.2 else getCount l k := by
  unfold getCount
  by_cases h : p.1 = k
  · rw [List.find?_cons_of_pos _ (by simpa using h), if_pos h]
  · rw [List.find?_cons_of_neg _ (by simpa using h), if_neg h]

theorem keysOf_bump (m : List (Str × Nat)) (k : Str) : keysOf (bump m k) = keysOf m := by
  simp only [bump, keysOf, List.map_map]
  congr 1
  funext p
  by_cases h : p.1 = k <;> simp [h]

theorem bump_cons (p : Str × Nat) (l : List (Str × Nat)) (k : Str) :
    bump (p :: l) k = (if p.1 = k then (p.1, p.2 + 1) else p) :: bump l k := rfl

theorem getCount_bump_self (m : List (Str × Nat)) (k : Str) (h : k ∈ keysOf m) :
    getCount (bump m k) k = getCount m k + 1 := by
  induction m with
  | nil => simp [keysOf] at h
  | cons p l ih =>
    rw [bump_cons]
    by_cases hpk : p.1 = k
    · rw [if_pos hpk, getCount_cons, getCount_cons]
      simp [hpk]
    · rw [if_neg hpk, getCount_cons, getCount_cons, if_neg hpk, if_neg hpk]
      apply ih
      simp only [keysOf, List.map_cons, List.mem_cons] at h
      rcases h with h1 | h1
      · exact absurd h1.symm hpk
      · simpa [keysOf] using h1

theorem getCount_bump_ne (m : List (Str × Nat)) (k n : Str) (h : n ≠ k) :
    getCount (bump m k) n = getCount m n := by
  induction m with
  | nil => rfl
  | cons p l ih =>
    rw [bump_cons]
    by_cases hpk : p.1 = k
    · rw [if_pos hpk, getCount_cons, getCount_cons]
      have hpn : ¬p.1 = n := fun hh => h (hh ▸ hpk)
      show (if p.1 = n then p.2 + 1 else getCount (bump l k) n) =
        if p.1 = n then p.2 else getCount l n
      rw [if_neg hpn, if_neg hpn]
      exact ih
    · rw [if_neg hpk, getCount_cons, getCount_cons]
      by_cases hpn : p.1 = n
      · rw [if_pos hpn, if_pos hpn]
      · rw [if_neg hpn, if_neg hpn]
        exact ih

theorem keysOf_scanB (fa fb : FileDetails) (m : List (Str × Nat)) :
    keysOf (scanB fa fb m) = keysOf m := by
  unfold scanB
  induction fa.exports generalizing m with
  | nil => rfl
  | cons e l ih =>
    rw [List.foldl_cons]
    by_cases h : isImported e fb.contents
    · rw [if_pos h, ih, keysOf_bump]
    · rw [if_neg h, ih]

theorem getCount_scanB (fa fb : FileDetails) (m : List (Str × Nat)) (n : Str)
    (h : n ∈ keysOf m) :
    getCount (scanB fa fb m) n =
      getCount m n + (if isImported n fb.contents = true then fa.exports.count n else 0) := by
  unfold scanB
  induction fa.exports generalizing m with
  | nil => simp
  | cons e l ih =>
    rw [List.foldl_cons]
    by_cases he : e = n
    · subst he
      have hcnt : List.count e (e :: l) = List.count e l + 1 := by
        simp [List.count_cons]
      by_cases hi : isImported e fb.contents = true
      · rw [if_pos hi]
        rw [ih (bump m e) (by rw [keysOf_bump]; exact h)]
        rw [getCount_bump_self m e h, if_pos hi, if_pos hi, hcnt]
        omega
      · rw [if_neg hi]
        rw [ih m h]
        rw [if_neg hi, if_neg hi]
    · have hcnt : List.count n (e :: l) = List.count n l := by
        simp [List.count_cons, he]
      by_cases hi : isImported e fb.contents = true
      · rw [if_pos hi]
        rw [ih (bump m e) (by rw [keysOf_bump]; exact h)]
        rw [getCount_bump_ne m e n (fun hh => he hh.symm)]
        rw [hcnt]
      · rw [if_neg hi]
        rw [ih m h]
        rw [hcnt]

theorem setKey_keys_mem (m : List (Str × Nat)) (k : Str) (v : Nat) (h : k ∈ keysOf m) :
    keysOf (setKey m k v) = keysOf m := by
  unfold setKey
  rw [if_pos (by simpa [keysOf] using h)]
  simp only [keysOf, List.map_map]
  congr 1
  funext p
  by_cases hp : p.1 = k <;> simp [hp]

theorem setKey_keys_new (m : List (Str × Nat)) (k : Str) (v : Nat) (h : k ∉ keysOf m) :
    keysOf (setKey m k v) = keysOf m ++ [k] := by
  unfold setKey
  rw [if_neg (by simpa [keysOf] using h)]
  simp [keysOf]

theorem allZero_setKey (m : List (Str × Nat)) (k : Str) (h : ∀ p ∈ m, p.2 = 0) :
    ∀ p ∈ setKey m k 0, p.2 = 0 := by
  intro p hp
  unfold setKey at hp
  by_cases hk : k ∈ m.map Prod.fst
  · rw [if_pos hk] at hp
    obtain ⟨q, hq, hfq⟩ := List.mem_map.mp hp
    by_cases h1 : q.1 = k
    · rw [if_pos h1] at hfq
      rw [← hfq]
    · rw [if_neg h1] at hfq
      rw [← hfq]
      exact h q hq
  · rw [if_neg hk] at hp
    rcases List.mem_append.mp hp with h1 | h1
    · exact h p h1
    · rw [List.mem_singleton.mp h1]

theorem allZero_initAux (l : List Str) (m : List (Str × Nat)) (h : ∀ p ∈ m, p.2 = 0) :
    ∀ p ∈ l.foldl (fun acc e => setKey acc e 0) m, p.2 = 0 := by
  induction l generalizing m with
  | nil => exact h
  | cons e l ih =>
    rw [List.foldl_cons]
    exact ih (setKey m e 0) (allZero_setKey m e h)

theorem getCount_of_allZero (m : List (Str × Nat)) (n : Str) (h : ∀ p ∈ m, p.2 = 0) :
    getCount m n = 0 := by
  unfold getCount
  cases hf : m.find? (fun p => p.1 = n) with
  | none => rfl
  | some p => exact h p (List.mem_of_find?_eq_some hf)

theorem getCount_initCounts (exps : List Str) (n : Str) : getCount (initCounts exps) n = 0 :=
  getCount_of_allZero _ _ (allZero_initAux exps [] (by intro p hp; simp at hp))

theorem keysOf_initAux (l : List Str) (m : List (Str × Nat)) :
    keysOf (l.foldl (fun acc e => setKey acc e 0) m) =
      l.foldl (fun acc n => if n ∈ acc then acc else acc ++ [n]) (keysOf m) := by
  induction l generalizing m with
  | nil => rfl
  | cons e l ih =>
    rw [List.foldl_cons, List.foldl_cons, ih]
    congr 1
    by_cases h : e ∈ keysOf m
    · rw [if_pos h, setKey_keys_mem m e 0 h]
    · rw [if_neg h, setKey_keys_new m e 0 h]

theorem keysOf_initCounts (exps : List Str) :
    keysOf (initCounts exps) = dedupKeepFirst exps :=
  keysOf_initAux exps []

theorem mem_dedupAux (l : List Str) (acc : List Str) (x : Str) :
    x ∈ l.foldl (fun acc n => if n ∈ acc then acc else acc ++ [n]) acc ↔ x ∈ acc ∨ x ∈ l := by
  induction l generalizing acc with
  | nil => simp
  | cons e l ih =>
    rw [List.foldl_cons, ih]
    by_cases h : e ∈ acc
    · rw [if_pos h]
      constructor
      · rintro (h1 | h1)
        · exact Or.inl h1
        · exact Or.inr (List.mem_cons_of_mem e h1)
      · rintro (h1 | h1)
        · exact Or.inl h1
        · rcases List.mem_cons.mp h1 with h2 | h2
          · exact Or.inl (h2 ▸ h)
          · exact Or.inr h2
    · rw [if_neg h]
      constructor
      · rintro (h1 | h1)
        · rcases List.mem_append.mp h1 with h2 | h2
          · exact Or.inl h2
          · exact Or.inr (List.mem_cons.mpr (Or.inl (List.mem_singleton.mp h2)))
        · exact Or.inr (List.mem_cons_of_mem e h1)
      · rintro (h1 | h1)
        · exact Or.inl (List.mem_append.mpr (Or.inl h1))
        · rcases List.mem_cons.mp h1 with h2 | h2
          · exact Or.inl (List.mem_append.mpr (Or.inr (by simp [h2])))
          · exact Or.inr h2

theorem mem_dedupKeepFirst (l : List Str) (x : Str) :
    x ∈ dedupKeepFirst l ↔ x ∈ l := by
  unfold dedupKeepFirst
  rw [mem_dedupAux]
  simp

theorem nodup_dedupAux (l : List Str) (acc : List Str) (h : acc.Nodup) :
    (l.foldl (fun acc n => if n ∈ acc then acc else acc ++ [n]) acc).Nodup := by
  induction l generalizing acc with
  | nil => exact h
  | cons e l ih =>
    rw [List.foldl_cons]
    by_cases he : e ∈ acc
    · rw [if_pos he]; exact ih acc h
    · rw [if_neg he]
      apply ih
      rw [List.nodup_append]
      exact ⟨h, List.nodup_singleton e,
        fun a ha hae => he ((List.mem_singleton.mp hae) ▸ ha)⟩

theorem nodup_keysOf_initCounts (exps : List Str) : (keysOf (initCounts exps)).Nodup := by
  rw [keysOf_initCounts]
  exact nodup_dedupAux exps [] List.nodup_nil

theorem getCount_foldPairs (fa : FileDetails) (a : Nat) (n : Str)
    (l : List (Nat × FileDetails)) (m : List (Str × Nat)) (h : n ∈ keysOf m) :
    getCount (l.foldl (fun acc p => if p.1 = a then acc else scanB fa p.2 acc) m) n =
      getCount m n +
        fa.exports.count n *
          (l.filter (fun q => if q.1 = a then false else isImported n q.2.contents)).length := by
  induction l generalizing m with
  | nil => simp
  | cons q l ih =>
    rw [List.foldl_cons, List.filter_cons]
    by_cases hq : q.1 = a
    · rw [if_pos hq]
      rw [ih m h]
      rw [if_neg (by simp [hq])]
    · rw [if_neg hq]
      rw [ih (scanB fa q.2 m) (by rw [keysOf_scanB]; exact h)]
      rw [getCount_scanB fa q.2 m n h]
      by_cases hi : isImported n q.2.contents = true
      · rw [if_pos hi,
          if_pos (show (if q.1 = a then false else isImported n q.2.contents) = true by
            simp [hq, hi])]
        simp only [List.length_cons]
        ring
      · rw [if_neg hi,
          if_neg (show ¬(if q.1 = a then false else isImported n q.2.contents) = true by
            simp [hq, hi])]
        omega

theorem getCount_countsAfter (files : List FileDetails) (a : Nat) (fa : FileDetails) (n : Str)
    (h : n ∈ fa.exports) :
    getCount (countsAfter files a fa) n =
      fa.exports.count n *
        (files.enum.filter
          (fun q => if q.1 = a then false else isImported n q.2.contents)).length := by
  unfold countsAfter
  rw [getCount_foldPairs fa a n files.enum (initCounts fa.exports)
    (by rw [keysOf_initCounts, mem_dedupKeepFirst]; exact h)]
  rw [getCount_initCounts]
  omega

theorem keysOf_countsAfter (files : List FileDetails) (a : Nat) (fa : FileDetails) :
    keysOf (countsAfter files a fa) = dedupKeepFirst fa.exports := by
  unfold countsAfter
  have haux : ∀ (l : List (Nat × FileDetails)) (m : List (Str × Nat)),
      keysOf (l.foldl (fun acc p => if p.1 = a then acc else scanB fa p.2 acc) m) = keysOf m := by
    intro l
    induction l with
    | nil => intro m; rfl
    | cons q l ih =>
      intro m
      rw [List.foldl_cons]
      by_cases hq : q.1 = a
      · rw [if_pos hq, ih m]
      · rw [if_neg hq, ih (scanB fa q.2 m), keysOf_scanB]
  rw [haux, keysOf_initCounts]

theorem jsEntries_perm (m : List (Str × Nat)) : (jsEntries m).Perm m := by
  unfold jsEntries
  exact List.Perm.trans
    (List.Perm.append_right _ (List.perm_insertionSort _ _))
    (List.filter_append_perm _ m)

theorem filterMap_pick_sublist (l : List (Str × Nat)) :
    (l.filterMap (fun p => if p.2 > 0 then none else some p.1)).Sublist (l.map Prod.fst) := by
  induction l with
  | nil => simp
  | cons p l ih =>
    rw [List.filterMap_cons, List.map_cons]
    by_cases h2 : p.2 > 0
    · rw [if_pos h2]; exact ih.cons _
    · rw [if_neg h2]; exact ih.cons₂ _

theorem deadOf_sublist (m : List (Str × Nat)) :
    (deadOf m).Sublist (keysOf (jsEntries m)) :=
  filterMap_pick_sublist (jsEntries m)

theorem mem_deadOf (m : List (Str × Nat)) (n : Str) :
    n ∈ deadOf m ↔ (n, 0) ∈ m := by
  unfold deadOf
  rw [List.mem_filterMap]
  constructor
  · rintro ⟨p, hp, hfp⟩
    by_cases h2 : p.2 > 0
    · rw [if_pos h2] at hfp; cases hfp
    · rw [if_neg h2] at hfp
      have hp1 : p.1 = n := by cases hfp; rfl
      have hp2 : p.2 = 0 := by omega
      have hpn : p = (n, 0) := by
        cases p
        simp only at hp1 hp2
        rw [hp1, hp2]
      rw [← hpn]
      exact ((jsEntries_perm m).mem_iff).mp hp
  · intro h
    refine ⟨(n, 0), ((jsEntries_perm m).mem_iff).mpr h, ?_⟩
    rfl

theorem getCount_eq_of_mem_nodup (m : List (Str × Nat)) (n : Str) (v : Nat)
    (hm : (n, v) ∈ m) (hnd : (keysOf m).Nodup) : getCount m n = v := by
  induction m with
  | nil => cases hm
  | cons p l ih =>
    simp only [keysOf, List.map_cons, List.nodup_cons] at hnd
    rw [getCount_cons]
    rcases List.mem_cons.mp hm with h1 | h1
    · rw [← h1]
      simp
    · have hpn : ¬p.1 = n := by
        intro hh
        exact hnd.1 (hh ▸ List.mem_map.mpr ⟨(n, v), h1, rfl⟩)
      rw [if_neg hpn]
      exact ih h1 hnd.2

theorem mem_of_getCount_zero (m : List (Str × Nat)) (n : Str)
    (h0 : getCount m n = 0) (hk : n ∈ keysOf m) : (n, 0) ∈ m := by
  induction m with
  | nil => simp [keysOf] at hk
  | cons p l ih =>
    rw [getCount_cons] at h0
    by_cases hpn : p.1 = n
    · rw [if_pos hpn] at h0
      have : p = (n, 0) := by
        cases p
        simp only at hpn h0
        rw [hpn, h0]
      exact this ▸ List.mem_cons_self p l
    · rw [if_neg hpn] at h0
      have hk' : n ∈ keysOf l := by
        simp only [keysOf, List.map_cons, List.mem_cons] at hk
        rcases hk with h1 | h1
        · exact absurd h1.symm hpn
        · simpa [keysOf] using h1
      exact List.mem_cons_of_mem p (ih h0 hk')

theorem nodup_keysOf_countsAfter (files : List FileDetails) (a : Nat) (fa : FileDetails) :
    (keysOf (countsAfter files a fa)).Nodup := by
  rw [keysOf_countsAfter]
  exact nodup_dedupAux _ [] List.nodup_nil

theorem jsEntries_eq_self (m : List (Str × Nat))
    (h : ∀ k ∈ keysOf m, isArrayIndexKey k = false) : jsEntries m = m := by
  unfold jsEntries
  have h1 : m.filter (fun p => isArrayIndexKey p.1) = [] := by
    rw [List.filter_eq_nil_iff]
    intro p hp
    simp [h p.1 (List.mem_map.mpr ⟨p, hp, rfl⟩)]
  have h2 : m.filter (fun p => !isArrayIndexKey p.1) = m := by
    rw [List.filter_eq_self]
    intro p hp
    simp [h p.1 (List.mem_map.mpr ⟨p, hp, rfl⟩)]
  rw [h1, h2]
  rfl

theorem report_eq_filterMap (files : List FileDetails) :
    getFilesWithDeadExports files =
      files.enum.filterMap (fun p =>
        if (deadOf (countsAfter files p.1 p.2)).isEmpty then none
        else some (p.2, deadOf (countsAfter files p.1 p.2))) := by
  unfold getFilesWithDeadExports
  have aux : ∀ (l : List (Nat × FileDetails)) (r : List (FileDetails × List Str)),
      l.foldl (fun rep p =>
        if (deadOf (countsAfter files p.1 p.2)).isEmpty then rep
        else rep ++ [(p.2, deadOf (countsAfter files p.1 p.2))]) r =
      r ++ l.filterMap (fun p =>
        if (deadOf (countsAfter files p.1 p.2)).isEmpty then none
        else some (p.2, deadOf (countsAfter files p.1 p.2))) := by
    intro l
    induction l with
    | nil => intro r; simp
    | cons q l ih =>
      intro r
      rw [List.foldl_cons]
      by_cases hc : (deadOf (countsAfter files q.1 q.2)).isEmpty = true
      · rw [if_pos hc, ih, List.filterMap_cons, if_pos hc]
      · rw [if_neg hc, ih, List.filterMap_cons, if_neg hc]
        simp
  rw [aux]
  rfl

theorem enum_get_mem {α : Type} (l : List α) (a : Nat) (ha : a < l.length) :
    (a, l.get ⟨a, ha⟩) ∈ l.enum := by
  have h1 : a < l.enum.length := by
    rw [List.enum_length]
    exact ha
  have h2 := List.getElem_enum l a h1
  rw [List.get_eq_getElem]
  rw [← h2]
  exact List.getElem_mem h1

theorem mem_enum_spec (files : List FileDetails) (p : Nat × FileDetails)
    (hp : p ∈ files.enum) :
    ∃ ha : p.1 < files.length, files.get ⟨p.1, ha⟩ = p.2 := by
  obtain ⟨i, x⟩ := p
  have h := List.mem_enumFrom hp
  refine ⟨by simpa using h.2.1, ?_⟩
  rw [List.get_eq_getElem]
  exact (by simpa using h.2.2 : x = files[i]).symm

theorem mem_report_iff (files : List FileDetails) (F : FileDetails) (dead : List Str) :
    (F, dead) ∈ getFilesWithDeadExports files ↔
      ∃ a, ∃ ha : a < files.length, files.get ⟨a, ha⟩ = F ∧
        dead = deadOf (countsAfter files a F) ∧ dead ≠ [] := by
  rw [report_eq_filterMap, List.mem_filterMap]
  constructor
  · rintro ⟨p, hp, hfp⟩
    by_cases hc : (deadOf (countsAfter files p.1 p.2)).isEmpty = true
    · rw [if_pos hc] at hfp
      cases hfp
    · rw [if_neg hc] at hfp
      have hF : p.2 = F := congrArg Prod.fst (Option.some.inj hfp)
      have hdead : deadOf (countsAfter files p.1 p.2) = dead :=
        congrArg Prod.snd (Option.some.inj hfp)
      obtain ⟨ha, hget⟩ := mem_enum_spec files p hp
      refine ⟨p.1, ha, by rw [hget]; exact hF, ?_, ?_⟩
      · rw [← hdead, hF]
      · intro hnil
        rw [hdead] at hc
        exact hc (by rw [hnil]; rfl)
  · rintro ⟨a, ha, hget, hdead, hne⟩
    refine ⟨(a, files.get ⟨a, ha⟩), enum_get_mem files a ha, ?_⟩
    have hc : (deadOf (countsAfter files a (files.get ⟨a, ha⟩))).isEmpty = false := by
      rw [hget, ← hdead]
      cases dead with
      | nil => exact absurd rfl hne
      | cons x xs => rfl
    rw [if_neg (by rw [hc]; exact fun hh => Bool.noConfusion hh)]
    rw [hget, ← hdead]

theorem isImported_of_wellFormed (name contents : Str)
    (h : wellFormedNamedImport name contents) : isImported name contents = true := by
  obtain ⟨pre, src, post, hc, -, -⟩ := h
  unfold isImported
  subst hc
  rw [show pre ++ toL "import \x7b " ++ name ++ toL " \x7d from " ++ src ++ post =
      pre ++ (toL "import" ++ (' ' :: (toL "\x7b " ++ (name ++
        (' ' :: (toL "\x7d " ++ (toL "from" ++ (' ' :: (src ++ post))))))))) by
    simp [toL]]
  apply anySuffix_of_split
  rw [Bool.and_eq_true]
  refine ⟨isPrefixOf_append _ _, ?_⟩
  rw [List.drop_left' (by rfl)]
  show tailName name (' ' :: _) = true
  unfold tailName
  apply anySuffix_of_split (a := toL "\x7b ")
  rw [Bool.and_eq_true]
  refine ⟨isPrefixOf_append _ _, ?_⟩
  rw [List.drop_left' rfl]
  show tailFrom (' ' :: _) = true
  unfold tailFrom
  apply anySuffix_of_split (a := toL "\x7d ")
  rw [Bool.and_eq_true]
  refine ⟨isPrefixOf_append _ _, ?_⟩
  rw [List.drop_left' (by rfl)]
  rfl


theorem splitSpace_cons (c : Char) (rest : Str) :
    splitSpace (c :: rest) =
      if c = ' ' then [] :: splitSpace rest
      else
        match splitSpace rest with
        | [] => [[c]]
        | t :: ts => (c :: t) :: ts := rfl

theorem splitSpace_ne_nil (s : Str) : splitSpace s ≠ [] := by
  cases s with
  | nil => exact fun h => List.noConfusion h
  | cons c rest =>
    rw [splitSpace_cons]
    by_cases hc : c = ' '
    · rw [if_pos hc]
      exact fun h => List.noConfusion h
    · rw [if_neg hc]
      cases h : splitSpace rest with
      | nil => exact fun h => List.noConfusion h
      | cons t ts => exact fun h => List.noConfusion h

theorem splitSpace_no_space (b : Str) (hb : ∀ c ∈ b, c ≠ ' ') : splitSpace b = [b] := by
  induction b with
  | nil => rfl
  | cons c rest ih =>
    rw [splitSpace_cons]
    rw [if_neg (hb c (List.mem_cons_self c rest))]
    rw [ih (fun x hx => hb x (List.mem_cons_of_mem c hx))]

theorem splitSpace_append_space (a b : Str) :
    ∃ t ts, splitSpace (a ++ ' ' :: b) = t :: ts ∧ ts ≠ [] ∧
      (t :: ts).getLast? = (splitSpace b).getLast? := by
  induction a with
  | nil =>
    obtain ⟨u, us, hus⟩ : ∃ u us, splitSpace b = u :: us := by
      cases h : splitSpace b with
      | nil => exact absurd h (splitSpace_ne_nil b)
      | cons u us => exact ⟨u, us, rfl⟩
    refine ⟨[], splitSpace b, ?_, ?_, ?_⟩
    · show splitSpace (' ' :: b) = [] :: splitSpace b
      rw [splitSpace_cons, if_pos rfl]
    · rw [hus]
      exact fun h => List.noConfusion h
    · rw [hus, List.getLast?_cons_cons]
  | cons c a ih =>
    obtain ⟨t, ts, hts, htsne, hlast⟩ := ih
    by_cases hc : c = ' '
    · subst hc
      refine ⟨[], t :: ts, ?_, fun h => List.noConfusion h, ?_⟩
      · show splitSpace (' ' :: (a ++ ' ' :: b)) = [] :: (t :: ts)
        rw [splitSpace_cons, if_pos rfl, hts]
      · rw [List.getLast?_cons_cons]
        exact hlast
    · obtain ⟨u, us, hus⟩ : ∃ u us, ts = u :: us := by
        cases ts with
        | nil => exact absurd rfl htsne
        | cons u us => exact ⟨u, us, rfl⟩
      refine ⟨c :: t, ts, ?_, htsne, ?_⟩
      · show splitSpace (c :: (a ++ ' ' :: b)) = (c :: t) :: ts
        rw [splitSpace_cons, if_neg hc, hts]
      · rw [hus] at hlast ⊢
        have h2 : ((c :: t) :: u :: us).getLast? = (u :: us).getLast? :=
          List.getLast?_cons_cons
        have h3 : (t :: u :: us).getLast? = (u :: us).getLast? :=
          List.getLast?_cons_cons
        rw [h2, ← h3, hlast]

theorem extractName_append_space (pre word : Str) (hw : word ≠ [])
    (hs : ∀ c ∈ word, c ≠ ' ') : extractName (pre ++ ' ' :: word) = some word := by
  obtain ⟨t, ts, hts, -, hlast⟩ := splitSpace_append_space pre word
  unfold extractName
  rw [hts, hlast, splitSpace_no_space word hs, List.getLast?_singleton]
  cases word with
  | nil => exact absurd rfl hw
  | cons c cs => rfl

/-- Claim C4: the Import Detector does not enforce token boundaries
around the symbol name — for the exported name `Foo`, `isImported`
returns `true` on a file whose text is `import useFoo from 'x'`, where
only the longer identifier `useFoo` contains `Foo` as a substring. -/
theorem c4_no_word_boundary :
    isImported (toL "Foo") (toL "import useFoo from 'x'") = true := by decide

/-- Claim C5: detection is greedy, whole-text and multi-line.  In this
text the only import statement imports `A` (and alone does not match,
second conjunct); the target name `target` only occurs in unrelated
code after it, and a later unrelated `from` token completes the match,
so `isImported` reports `true` although no single coherent import
statement imports `target`. -/
theorem c5_greedy_span :
    isImported (toL "target")
        (toL "import A from 'x'\nconst target = 1\n// from here") = true ∧
      isImported (toL "target") (toL "import A from 'x'") = false := by decide

/-- Claim C3, counterexample: the Export Extractor does not recognize
`export async function foo() {}` — the regex alternation contains
`default async function` but no bare `async function`, so the extracted
exports sequence is empty and does not contain `foo`, contradicting the
claim. -/
theorem c3_counterexample :
    toL "foo" ∉ getExportsOf (toL "export async function foo() {}") ∧
      getExportsOf (toL "export async function foo() {}") = [] := by decide

/-- Claim C3, amended: `async` is only recognized in the combination
`default async function`.  A declaration `export async function foo()`
yields no export, while `export default async function foo()` and
`export function foo()` both yield `foo`. -/
theorem c3_amended :
    getExportsOf (toL "export async function foo() {}") = [] ∧
      getExportsOf (toL "export default async function foo() {}") = [toL "foo"] ∧
      getExportsOf (toL "export function foo() {}") = [toL "foo"] := by decide

/-- Claim C8, counterexample: when the whitespace immediately before
the identifier is a tab, the produced symbol name is not the identifier
token — for `export const<TAB>foo = 1` the match is split at space
characters only, so the extracted name is `const<TAB>foo`, not `foo`. -/
theorem c8_counterexample :
    getExportsOf (toL "export const\tfoo = 1") = [toL "const\tfoo"] ∧
      toL "foo" ∉ getExportsOf (toL "export const\tfoo = 1") := by decide

/-- Claim C8, amended: the produced symbol name is the run of
characters after the last space of the match.  Whenever the character
immediately preceding the identifier is a space (in particular with any
number of spaces between the tokens), the produced name is exactly the
identifier; with a tab or newline directly before the identifier the
produced name also contains preceding keyword characters
(see the counterexample). -/
theorem c8_amended (pre word : Str) (hw : word ≠ []) (hs : ∀ c ∈ word, c ≠ ' ') :
    extractName (pre ++ ' ' :: word) = some word :=
  extractName_append_space pre word hw hs

/-- Claim C8, witness: the amended statement evaluated on the match
`export const foo`. -/
theorem c8_witness :
    extractName (toL "export const" ++ ' ' :: toL "foo") = some (toL "foo") :=
  c8_amended (toL "export const") (toL "foo") (by decide) (by decide)

/-- Claim C2, counterexample: a single other file `b.ts` that imports
`N` increments the counter of a file exporting `N` twice (once per
occurrence of `N` in the exports sequence), so the counter reaches 2
after scanning one file — not "at most one". -/
theorem c2_counterexample :
    countsAfter
        [⟨toL "a.ts", [], [toL "N", toL "N"]⟩,
         ⟨toL "b.ts", toL "import { N } from './a'", []⟩]
        0 ⟨toL "a.ts", [], [toL "N", toL "N"]⟩ = [(toL "N", 2)] := by decide

/-- Claim C2, amended: scanning a single file B increments A's counter
for a name by the number of occurrences of that name in A's exports
sequence when the Import Detector fires on B (and by zero otherwise).
It is thus at most one per file only for names exported once;
multiple detector matches inside B still count only once per
occurrence, since the detector is boolean. -/
theorem c2_amended (fa fb : FileDetails) (m : List (Str × Nat)) (n : Str)
    (h : n ∈ keysOf m) :
    getCount (scanB fa fb m) n =
      getCount m n +
        (if isImported n fb.contents = true then fa.exports.count n else 0) :=
  getCount_scanB fa fb m n h

/-- Claim C2, witness: the amended statement evaluated on a file with a
duplicated export name against one importing file. -/
theorem c2_witness :
    getCount (scanB ⟨toL "a.ts", [], [toL "N", toL "N"]⟩
        ⟨toL "b.ts", toL "import { N } from './a'", []⟩ [(toL "N", 0)]) (toL "N") =
      getCount [(toL "N", 0)] (toL "N") +
        (if isImported (toL "N") (toL "import { N } from './a'") = true
         then ([toL "N", toL "N"] : List Str).count (toL "N") else 0) :=
  c2_amended ⟨toL "a.ts", [], [toL "N", toL "N"]⟩
    ⟨toL "b.ts", toL "import { N } from './a'", []⟩ [(toL "N", 0)] (toL "N") (by decide)

/-- Claim C7, counterexample: export names that are canonical
array-index numerals break declaration order.  For a file declaring
`foo` first and the default export `0` second, JavaScript object-key
enumeration (`Object.entries`) lists the array-index key `"0"` before
the string key `"foo"`, so the dead-export list is `["0", "foo"]`,
which is not in declaration order `["foo", "0"]`. -/
theorem c7_counterexample :
    (mkFileDetails (toL "a.ts") (toL "export const foo = 1\nexport default 0")).exports =
        [toL "foo", toL "0"] ∧
      getFilesWithDeadExports
          [mkFileDetails (toL "a.ts") (toL "export const foo = 1\nexport default 0")] =
        [(mkFileDetails (toL "a.ts") (toL "export const foo = 1\nexport default 0"),
          [toL "0", toL "foo"])] ∧
      ¬ ([toL "0", toL "foo"] : List Str).Sublist
          (dedupKeepFirst [toL "foo", toL "0"]) := by decide

/-- Claim C7, amended: provided none of the file's export names is a
canonical array-index numeral string, the dead-export list is a
subsequence of the export names in order of first appearance
(duplicates collapsed to their first declaration); counters keyed by
array-index numerals are instead enumerated first, in ascending numeric
order. -/
theorem c7_amended (files : List FileDetails) (F : FileDetails) (dead : List Str)
    (hmem : (F, dead) ∈ getFilesWithDeadExports files)
    (hkeys : ∀ n ∈ F.exports, isArrayIndexKey n = false) :
    dead.Sublist (dedupKeepFirst F.exports) := by
  rw [mem_report_iff] at hmem
  obtain ⟨a, ha, -, hdead, -⟩ := hmem
  subst hdead
  have hk : ∀ k ∈ keysOf (countsAfter files a F), isArrayIndexKey k = false := by
    intro k hkm
    rw [keysOf_countsAfter, mem_dedupKeepFirst] at hkm
    exact hkeys k hkm
  have hsub := deadOf_sublist (countsAfter files a F)
  rw [jsEntries_eq_self _ hk, keysOf_countsAfter] at hsub
  exact hsub

/-- Claim C7, witness: the amended statement evaluated on a single file
with one ordinary (non-numeric) dead export. -/
theorem c7_witness :
    ([toL "foo"] : List Str).Sublist
      (dedupKeepFirst (FileDetails.mk (toL "a.ts") [] [toL "foo"]).exports) :=
  c7_amended [⟨toL "a.ts", [], [toL "foo"]⟩] ⟨toL "a.ts", [], [toL "foo"]⟩ [toL "foo"]
    (by decide) (by decide)

/-- Claim C9: every name in a dead-export list recorded for a file F is
an element of F's exports sequence — the report only ever contains keys
of F's counter object, and those are exactly the (first occurrences of)
F's exported names. -/
theorem c9_dead_mem_exports (files : List FileDetails) (F : FileDetails) (dead : List Str)
    (h : (F, dead) ∈ getFilesWithDeadExports files) : ∀ n ∈ dead, n ∈ F.exports := by
  rw [mem_report_iff] at h
  obtain ⟨a, ha, -, hdead, -⟩ := h
  subst hdead
  intro n hn
  have h1 : (n, 0) ∈ countsAfter files a F := (mem_deadOf _ n).mp hn
  have h2 : n ∈ keysOf (countsAfter files a F) := List.mem_map.mpr ⟨(n, 0), h1, rfl⟩
  rw [keysOf_countsAfter, mem_dedupKeepFirst] at h2
  exact h2

/-- Claim C9, witness: evaluated on a one-file list whose only export
is dead. -/
theorem c9_witness :
    toL "x" ∈ (FileDetails.mk (toL "a.ts") [] [toL "x"]).exports :=
  c9_dead_mem_exports [⟨toL "a.ts", [], [toL "x"]⟩] ⟨toL "a.ts", [], [toL "x"]⟩ [toL "x"]
    (by decide) (toL "x") (by decide)

/-- Claim C10: a dead-export list never repeats a name, even when the
file's exports sequence contains the same name multiple times, because
the counters are keyed by name: the counter object has no duplicate
keys, and the dead list is a subsequence of its key enumeration. -/
theorem c10_dead_nodup (files : List FileDetails) (F : FileDetails) (dead : List Str)
    (h : (F, dead) ∈ getFilesWithDeadExports files) : dead.Nodup := by
  rw [mem_report_iff] at h
  obtain ⟨a, ha, -, hdead, -⟩ := h
  subst hdead
  have hperm : (keysOf (jsEntries (countsAfter files a F))).Perm
      (keysOf (countsAfter files a F)) :=
    List.Perm.map Prod.fst (jsEntries_perm _)
  exact (deadOf_sublist _).nodup
    (hperm.nodup_iff.mpr (nodup_keysOf_countsAfter files a F))

/-- Claim C10, witness: evaluated on a file exporting the same name
twice; the dead list collapses the duplicates into one entry. -/
theorem c10_witness : ([toL "N"] : List Str).Nodup :=
  c10_dead_nodup [⟨toL "a.ts", [], [toL "N", toL "N"]⟩]
    ⟨toL "a.ts", [], [toL "N", toL "N"]⟩ [toL "N"] (by decide)

/-- Claim C6: the Cross-Reference Engine never tests a file's exports
against its own contents.  If no file at an index other than `a`
matches the Import Detector for an export `n` of the file at index `a`
(the file's own contents are unconstrained and may well self-import
`n`), then `n`'s counter stays zero and `n` is reported dead for that
file. -/
theorem c6_self_skip (files : List FileDetails) (a : Nat) (ha : a < files.length) (n : Str)
    (hn : n ∈ (files.get ⟨a, ha⟩).exports)
    (hother : ∀ p ∈ files.enum, p.1 ≠ a → isImported n p.2.contents = false) :
    getCount (countsAfter files a (files.get ⟨a, ha⟩)) n = 0 ∧
      ∃ dead, (files.get ⟨a, ha⟩, dead) ∈ getFilesWithDeadExports files ∧ n ∈ dead := by
  have hfilter : files.enum.filter
      (fun q => if q.1 = a then false else isImported n q.2.contents) = [] := by
    rw [List.filter_eq_nil_iff]
    intro p hp
    by_cases hpa : p.1 = a
    · simp [hpa]
    · simp [hpa, hother p hp hpa]
  have h0 : getCount (countsAfter files a (files.get ⟨a, ha⟩)) n = 0 := by
    rw [getCount_countsAfter files a _ n hn, hfilter]
    simp
  have hk : n ∈ keysOf (countsAfter files a (files.get ⟨a, ha⟩)) := by
    rw [keysOf_countsAfter, mem_dedupKeepFirst]
    exact hn
  have hmemdead : n ∈ deadOf (countsAfter files a (files.get ⟨a, ha⟩)) :=
    (mem_deadOf _ n).mpr (mem_of_getCount_zero _ n h0 hk)
  refine ⟨h0, deadOf (countsAfter files a (files.get ⟨a, ha⟩)), ?_, hmemdead⟩
  rw [mem_report_iff]
  exact ⟨a, ha, rfl, rfl, List.ne_nil_of_mem hmemdead⟩

/-- Claim C6, witness: a single file that imports its own export still
reports that export as dead (the hypothesis on other files holds
vacuously). -/
theorem c6_witness :
    getCount (countsAfter
        [(⟨toL "a.ts", toL "import { N } from './a'", [toL "N"]⟩ : FileDetails)] 0
        ⟨toL "a.ts", toL "import { N } from './a'", [toL "N"]⟩) (toL "N") = 0 ∧
      ∃ dead,
        ((⟨toL "a.ts", toL "import { N } from './a'", [toL "N"]⟩ : FileDetails), dead) ∈
            getFilesWithDeadExports
              [⟨toL "a.ts", toL "import { N } from './a'", [toL "N"]⟩] ∧
          toL "N" ∈ dead :=
  c6_self_skip [⟨toL "a.ts", toL "import { N } from './a'", [toL "N"]⟩] 0 (by decide)
    (toL "N") (by decide) (by decide)

/-- Claim C1: if some other file B contains a well-formed single-line
statement `import { N } from '...'` for a name N exported by file A,
then `isImported` detects it and N is not in any dead-export list
recorded for A's record in the report. -/
theorem c1_import_not_dead (files : List FileDetails) (a b : Nat)
    (ha : a < files.length) (hb : b < files.length) (hab : b ≠ a) (n : Str)
    (hn : n ∈ (files.get ⟨a, ha⟩).exports)
    (hw : wellFormedNamedImport n (files.get ⟨b, hb⟩).contents) :
    isImported n (files.get ⟨b, hb⟩).contents = true ∧
      ∀ dead, (files.get ⟨a, ha⟩, dead) ∈ getFilesWithDeadExports files → n ∉ dead := by
  have hi : isImported n (files.get ⟨b, hb⟩).contents = true :=
    isImported_of_wellFormed n _ hw
  refine ⟨hi, ?_⟩
  intro dead hmem hndead
  rw [mem_report_iff] at hmem
  obtain ⟨c, hc, hget, hdead, -⟩ := hmem
  subst hdead
  have h0 : getCount (countsAfter files c (files.get ⟨a, ha⟩)) n = 0 :=
    getCount_eq_of_mem_nodup _ n 0 ((mem_deadOf _ n).mp hndead)
      (nodup_keysOf_countsAfter files c _)
  rw [getCount_countsAfter files c _ n hn] at h0
  have hx : ∃ d, ∃ hd : d < files.length, d ≠ c ∧
      isImported n (files.get ⟨d, hd⟩).contents = true := by
    by_cases hcb : c = b
    · subst hcb
      refine ⟨a, ha, fun hac => hab hac.symm, ?_⟩
      rw [← hget]
      exact hi
    · exact ⟨b, hb, fun h => hcb h.symm, hi⟩
  obtain ⟨d, hd, hdc, hdi⟩ := hx
  have hmem2 : (d, files.get ⟨d, hd⟩) ∈ files.enum.filter
      (fun q => if q.1 = c then false else isImported n q.2.contents) := by
    rw [List.mem_filter]
    refine ⟨enum_get_mem files d hd, ?_⟩
    simpa [hdc] using hdi
  have hlen : 0 < (files.enum.filter
      (fun q => if q.1 = c then false else isImported n q.2.contents)).length :=
    List.length_pos_of_mem hmem2
  have hcnt : 0 < (files.get ⟨a, ha⟩).exports.count n := List.count_pos_iff.mpr hn
  have := Nat.mul_pos hcnt hlen
  omega

/-- Claim C1, witness: two files, the second containing a well-formed
single-line import of the first one's export `N`; the detector fires
and `N` is in no dead list recorded for the first file. -/
theorem c1_witness :
    isImported (toL "N") (toL "import { N } from './a'") = true ∧
      ∀ dead,
        ((⟨toL "a.ts", [], [toL "N"]⟩ : FileDetails), dead) ∈
            getFilesWithDeadExports
              [⟨toL "a.ts", [], [toL "N"]⟩,
               ⟨toL "b.ts", toL "import { N } from './a'", []⟩] →
          toL "N" ∉ dead :=
  c1_import_not_dead
    [⟨toL "a.ts", [], [toL "N"]⟩, ⟨toL "b.ts", toL "import { N } from './a'", []⟩]
    0 1 (by decide) (by decide) (by decide) (toL "N") (by decide)
    ⟨[], toL "'./a'", [], by decide, by decide, by decide⟩
